import Mathlib

/-!
Verification development for the CKKS-based federated-aggregation pipeline
(`MINOR/Ckks-RNS/Ckks.py`, with local-model training in
`MINOR/LocalModels/Hospital2/LogisticRegression.py`).

The code the repository itself contributes is the glue pipeline in `Ckks.py`: CSV →
weight vector → CKKS encrypt → homomorphic aggregate → decrypt → CSV.
The CKKS engine itself is the external Pyfhel library, which is not part
of the repository sources; its operations (encode/encrypt/add/scalar
multiply/decrypt/serialize) are therefore modelled from the specification
(scaled rounding encoder, bounded fresh encryption noise, slot-wise
homomorphic operations, field-for-field serialization).  All functions of
`Ckks.py` are embedded faithfully over an explicit file-system state.
-/

namespace Ckks

/-- CKKS context parameters, mirroring `contextGen(scheme="CKKS", n, scale, sec)`.
`n` is the polynomial ring dimension, `scaleq` the fixed-point scale,
`sec` the security level in bits. -/
structure Context where
  n : ℕ
  scaleq : ℚ
  sec : ℕ
  deriving DecidableEq

/-- Modelled from the spec: the secret key, "a polynomial with small
coefficients"; its actual algebraic content is opaque to the pipeline, so it
is modelled as the value drawn from the random source at key generation. -/
structure SecretKey where
  val : ℤ
  deriving DecidableEq

/-- Modelled from the spec: the public key, "a pair of polynomials derived
from SecretKey and a fresh random polynomial plus error"; opaque to the
pipeline, modelled as the value derived from the key-generation randomness. -/
structure PublicKey where
  val : ℤ
  deriving DecidableEq

/-- Modelled from the spec: a CKKS ciphertext.  Its observable content under
decryption is the scaled message polynomial plus the accumulated noise
polynomial (slot-wise), together with the current scale. -/
structure Ciphertext where
  msg : List ℤ
  noise : List ℤ
  scaleq : ℚ
  deriving DecidableEq

/-- The context generated by the defaults of `keygen_if_missing`:
`poly_degree = 2^15`, `scale = 2^40`, `sec = 128`. -/
def defaultContext : Context := ⟨2 ^ 15, 2 ^ 40, 128⟩

/-- Modelled from the spec: bound on the magnitude of the fresh noise
introduced by encryption, small relative to the scale `2^40` so that
decoding rounds correctly. -/
def noiseBound : ℤ := 2 ^ 20

/-- Modelled from the spec: key generation from an explicitly passed random
source (`keyGen` in Pyfhel); the pipeline never inspects the key contents. -/
def keyGen (seed : ℤ) : SecretKey × PublicKey := (⟨seed⟩, ⟨seed + 1⟩)

/-- Modelled from the spec: `encode(vector, scale)` scales each real slot by
the context scale and rounds to the nearest integer (`HE.encodeVec`). -/
def encodeVec (ctx : Context) (v : List ℚ) : List ℤ :=
  v.map (fun x => round (x * ctx.scaleq))

/-- Modelled from the spec: `encrypt(plaintext, publicKey)` produces a
ciphertext carrying the plaintext polynomial plus bounded fresh noise
(`HE.encryptPtxt`).  The fresh randomness is passed explicitly. -/
def encryptPtxt (ctx : Context) (_pk : PublicKey) (pt : List ℤ) (fresh : List ℤ) : Ciphertext :=
  ⟨pt, fresh, ctx.scaleq⟩

/-- Modelled from the spec: `decrypt` recovers plaintext + noise under the
secret key, and decoding divides by the scale; `HE.decryptFrac` composes
both. -/
def decryptFrac (_sk : SecretKey) (ct : Ciphertext) : List ℚ :=
  (List.zipWith (· + ·) ct.msg ct.noise).map (fun (c : ℤ) => (c : ℚ) / ct.scaleq)

/-- Modelled from the spec: homomorphic ciphertext + ciphertext addition is
component-wise polynomial addition; message and noise add, scale unchanged. -/
def hadd (a b : Ciphertext) : Ciphertext :=
  ⟨List.zipWith (· + ·) a.msg b.msg, List.zipWith (· + ·) a.noise b.noise, a.scaleq⟩

/-- Modelled from the spec: ciphertext × plaintext-scalar multiplication
(multiply by the encoded constant, then rescale back to the original scale);
slot-wise this rounds `k · c` for each coefficient. -/
def mulPlainScalar (a : Ciphertext) (k : ℚ) : Ciphertext :=
  ⟨a.msg.map (fun (m : ℤ) => round (k * (m : ℚ))),
    a.noise.map (fun (c : ℤ) => round (k * (c : ℚ))), a.scaleq⟩

/-- Modelled from the spec: binary serialization of a context
(ring dimension, scale as numerator/denominator, security tag). -/
def serCtx (c : Context) : List ℤ :=
  [(c.n : ℤ), c.scaleq.num, (c.scaleq.den : ℤ), (c.sec : ℤ)]

/-- Modelled from the spec: deserialization of a context; fails on a
malformed file. -/
def decCtx : List ℤ → Option Context
  | [n, num, den, sec] => some ⟨n.toNat, (num : ℚ) / (den : ℚ), sec.toNat⟩
  | _ => none

/-- Modelled from the spec: serialization of a public key. -/
def serPub (pk : PublicKey) : List ℤ := [pk.val]

/-- Modelled from the spec: deserialization of a public key. -/
def decPub : List ℤ → Option PublicKey
  | [v] => some ⟨v⟩
  | _ => none

/-- Modelled from the spec: serialization of a secret key. -/
def serSec (sk : SecretKey) : List ℤ := [sk.val]

/-- Modelled from the spec: deserialization of a secret key. -/
def decSec : List ℤ → Option SecretKey
  | [v] => some ⟨v⟩
  | _ => none

/-- Modelled from the spec: serialization of a ciphertext (scale metadata,
message length, then the two polynomials). -/
def serCt (ct : Ciphertext) : List ℤ :=
  ct.scaleq.num :: (ct.scaleq.den : ℤ) :: (ct.msg.length : ℤ) :: (ct.msg ++ ct.noise)

/-- Modelled from the spec: deserialization of a ciphertext. -/
def decCt : List ℤ → Option Ciphertext
  | num :: den :: len :: rest =>
      some ⟨rest.take len.toNat, rest.drop len.toNat, (num : ℚ) / (den : ℚ)⟩
  | _ => none

/-- A weights CSV as `Ckks.py` consumes it: the optional `Feature` column
and the coefficient column found by `_find_coef_column` (CSV parsing itself
is outside the modelled core; a file with no coefficient column makes
`_find_coef_column` raise before any of the modelled logic runs). -/
structure WeightsCsv where
  features : Option (List String)
  coefs : List ℚ
  deriving DecidableEq

/-- Embedding of `weights_csv_to_vector`: build `[coef_0, …, coef_(n-1), intercept]`.
If a `Feature` column exists and some row is `intercept` (case-insensitive),
the coefficient of that row is moved to the end; otherwise the last row is
already the intercept, so the reconcatenation `values[:-1] ++ [values[-1]]`
is the identity on the column (Python raises `IndexError` on an empty
column; the model returns the empty list there, unreachable in the claims). -/
def weights_csv_to_vector (w : WeightsCsv) : List ℚ :=
  match w.features with
  | some fs =>
      if fs.any (fun f => f.toLower == "intercept") then
        let rows := fs.zip w.coefs
        let intercept :=
          ((rows.filter (fun r => r.1.toLower == "intercept")).map Prod.snd).headD 0
        ((rows.filter (fun r => !(r.1.toLower == "intercept"))).map Prod.snd) ++ [intercept]
      else w.coefs
  | none => w.coefs

/-- Embedding of `weights_csv_feature_names`: feature names in coefficient order followed
by `"Intercept"`; synthesized `f0, f1, …` when there is no `Feature`
column. -/
def weights_csv_feature_names (w : WeightsCsv) : List String :=
  match w.features with
  | some fs =>
      if fs.any (fun f => f.toLower == "intercept") then
        (fs.filter (fun f => !(f.toLower == "intercept"))) ++ ["Intercept"]
      else fs.dropLast ++ ["Intercept"]
  | none =>
      ((List.range (w.coefs.length - 1)).map (fun i => "f" ++ toString i)) ++ ["Intercept"]

/-- The on-disk state the pipeline reads and writes: the three key files in
`keys/`, ciphertext files addressed by path, the two input weight CSVs, and
the two output CSVs in `global/`.  Key and ciphertext files hold serialized
binary content (lists of integers). -/
structure FS where
  ctxF : Option (List ℤ)
  pubF : Option (List ℤ)
  secF : Option (List ℤ)
  cts : String → Option (List ℤ)
  h1Csv : Option WeightsCsv
  h2Csv : Option WeightsCsv
  idxCsv : Option (List (ℕ × ℚ))
  namedCsv : Option (List (String × ℚ))

/-- Write a ciphertext file at `p`. -/
def FS.writeCt (fs : FS) (p : String) (b : List ℤ) : FS :=
  { fs with cts := fun q => if q = p then some b else fs.cts q }

/-- Forget the secret-key file (used to compare states up to the secret
key). -/
def FS.eraseSec (fs : FS) : FS := { fs with secF := none }

/-- Path of a ciphertext file inside `ciphertexts/`. -/
def ctPath (name : String) : String := "ciphertexts/" ++ name

/-- Output path of the homomorphic average. -/
def globalAvgPath : String := "global/global_avg.ct"

/-- Output path of the homomorphic sum. -/
def globalSumPath : String := "global/global_sum.ct"

/-- Errors surfaced by the pipeline (Python raises
`FileNotFoundError`/`ValueError`; the spec taxonomy names the decode-side
length check `LengthMismatch`). -/
inductive CkksError where
  | fileMissing (which : String)
  | partyLengthMismatch
  | lengthMismatch
  | loadFailed
  deriving DecidableEq

/-- Embedding of `keygen_if_missing`: when all three key files exist, load them; otherwise
generate a fresh context and key pair (from the explicit random source) and
save all three.  Returns the updated file system and the loaded/created
`(context, public key, secret key)`; `none` models a raised load error. -/
def keygen_if_missing (seed : ℤ) (fs : FS) :
    Option (FS × (Context × PublicKey × SecretKey)) :=
  match fs.ctxF, fs.pubF, fs.secF with
  | some cb, some pb, some sb => do
      let c ← decCtx cb
      let pk ← decPub pb
      let sk ← decSec sb
      pure (fs, (c, pk, sk))
  | _, _, _ =>
      let c := defaultContext
      let (sk, pk) := keyGen seed
      some ({ fs with
                ctxF := some (serCtx c)
                pubF := some (serPub pk)
                secF := some (serSec sk) },
            (c, pk, sk))

/-- Embedding of `load_for_server`: load context + public key only (no secret key);
used on the aggregator side. -/
def load_for_server (fs : FS) : Option (Context × PublicKey) := do
  let cb ← fs.ctxF
  let c ← decCtx cb
  let pb ← fs.pubF
  let pk ← decPub pb
  pure (c, pk)

/-- Embedding of `load_for_decrypt`: load context + public + secret key (client side). -/
def load_for_decrypt (fs : FS) : Option (Context × PublicKey × SecretKey) := do
  let cb ← fs.ctxF
  let c ← decCtx cb
  let pb ← fs.pubF
  let pk ← decPub pb
  let sb ← fs.secF
  let sk ← decSec sb
  pure (c, pk, sk)

/-- Embedding of `encrypt_weights_csv`: create/load keys, build the weight vector, encode
and encrypt it, save the ciphertext under `ciphertexts/out_name`, and (when
`verify` is set) decrypt the just-produced ciphertext and pair the first
`min 5 len` original/decrypted entries for printing. -/
def encrypt_weights_csv (seed : ℤ) (fresh : List ℤ) (fs : FS) (w : WeightsCsv)
    (out_name : String) (verify : Bool) :
    Option (FS × String × List (ℚ × ℚ)) := do
  let (fs, he) ← keygen_if_missing seed fs
  let vec := weights_csv_to_vector w
  let ptxt := encodeVec he.1 vec
  let ctxt := encryptPtxt he.1 he.2.1 ptxt fresh
  let out := ctPath out_name
  let fs := fs.writeCt out (serCt ctxt)
  let pairs := if verify then (vec.zip (decryptFrac he.2.2 ctxt)).take 5 else []
  pure (fs, out, pairs)

/-- The pure aggregation over the ciphertext-file store: load the first
ciphertext, fold `agg += c` over the rest, then `agg *= 1/len` when
averaging; returns the aggregate and the output path. -/
def aggregateCore (look : String → Option (List ℤ)) (ct_paths : List String)
    (average : Bool) : Option (Ciphertext × String) := do
  let p0 ← ct_paths.head?
  let b0 ← look p0
  let c0 ← decCt b0
  let agg ← ct_paths.tail.foldlM (fun a p => do
      let b ← look p
      let c ← decCt b
      pure (hadd a c)) c0
  let agg := if average then mulPlainScalar agg ((1 : ℚ) / (ct_paths.length : ℚ)) else agg
  pure (agg, if average then globalAvgPath else globalSumPath)

/-- Embedding of `aggregate_ciphertexts`: on the server, load context + public key, load
the ciphertexts from their files, homomorphically sum (and average), and
save the aggregate to `global/`.  The secret-key file is never read. -/
def aggregate_ciphertexts (fs : FS) (ct_paths : List String) (average : Bool) :
    Option (FS × String) :=
  match load_for_server fs, aggregateCore fs.cts ct_paths average with
  | some _, some (agg, out) => some (fs.writeCt out (serCt agg), out)
  | _, _ => none

/-- Embedding of `decrypt_ciphertext_to_csv`: load keys with the secret key, load and
decrypt the ciphertext, write the Index/Value CSV, then check the
feature-name list length and either raise the length mismatch (the index
CSV is already on disk) or write the Feature/Coefficient CSV. -/
def decrypt_ciphertext_to_csv (fs : FS) (ct_path : String) (canonical_features : List String) :
    FS × Except CkksError (List (ℕ × ℚ) × List (String × ℚ)) :=
  match load_for_decrypt fs, (fs.cts ct_path).bind decCt with
  | some he, some ctxt =>
      let vec := decryptFrac he.2.2 ctxt
      let idx := (List.range vec.length).zip vec
      let fs1 := { fs with idxCsv := some idx }
      if canonical_features.length ≠ vec.length then
        (fs1, .error .lengthMismatch)
      else
        let named := canonical_features.zip vec
        ({ fs1 with namedCsv := some named }, .ok (idx, named))
  | _, _ => (fs, .error .loadFailed)

/-- Embedding of `main`: check both weight files exist, encrypt both, check the two
weight vectors have equal length, aggregate (average unless `--sum`), and
decrypt the global ciphertext against the feature names of hospital 1.  The
fresh encryption randomness of the two encryptions is passed explicitly. -/
def main (seed : ℤ) (f1 f2 : List ℤ) (do_sum verify : Bool) (fs : FS) :
    FS × Except CkksError String :=
  match fs.h1Csv with
  | none => (fs, .error (.fileMissing ("h1")))
  | some w1 =>
    match fs.h2Csv with
    | none => (fs, .error (.fileMissing ("h2")))
    | some w2 =>
      match encrypt_weights_csv seed f1 fs w1 ("hospital1.ct") verify with
      | none => (fs, .error .loadFailed)
      | some (fs1, ct1, _) =>
        match encrypt_weights_csv seed f2 fs1 w2 ("hospital2.ct") verify with
        | none => (fs1, .error .loadFailed)
        | some (fs2, ct2, _) =>
          if (weights_csv_to_vector w1).length ≠ (weights_csv_to_vector w2).length then
            (fs2, .error .partyLengthMismatch)
          else
            match aggregate_ciphertexts fs2 [ct1, ct2] (!do_sum) with
            | none => (fs2, .error .loadFailed)
            | some (fs3, gpath) =>
              let (fs4, r) := decrypt_ciphertext_to_csv fs3 gpath (weights_csv_feature_names w1)
              match r with
              | .error e => (fs4, .error e)
              | .ok _ => (fs4, .ok gpath)

/-- The empty file system: nothing on disk yet. -/
def emptyFS : FS := ⟨none, none, none, fun _ => none, none, none, none, none⟩

/-- A file system holding the default context, a public key, and the two
hospital ciphertext files — the server view before aggregation. -/
def twoCtFS (pk : PublicKey) (b1 b2 : List ℤ) : FS :=
  { emptyFS with
      ctxF := some (serCtx defaultContext)
      pubF := some (serPub pk)
      cts := fun q =>
        if q = ctPath ("hospital1.ct") then some b1
        else if q = ctPath ("hospital2.ct") then some b2
        else none }

/-- A file system holding all three key files and the global ciphertext —
the view of the decrypting client. -/
def clientFS (pk : PublicKey) (sk : SecretKey) (b : List ℤ) : FS :=
  { emptyFS with
      ctxF := some (serCtx defaultContext)
      pubF := some (serPub pk)
      secF := some (serSec sk)
      cts := fun q => if q = globalAvgPath then some b else none }

section Helpers

/-- Rounding moves a rational by at most one half. -/
lemma abs_round_sub (z : ℚ) : |(round z : ℚ) - z| ≤ 1 / 2 := by
  rw [abs_sub_comm]
  exact abs_sub_round z

/-- A slot of a decryption at scale `2^40` is within `B / 2^40` of the true
value when the decrypted integer coefficient is within `B` of the scaled
value. -/
lemma div_scale_bound (m : ℤ) (x B : ℚ) (h : |(m : ℚ) - x * 2 ^ 40| ≤ B) :
    |(m : ℚ) / (2 ^ 40 : ℚ) - x| ≤ B / 2 ^ 40 := by
  have hs : (0 : ℚ) < 2 ^ 40 := by norm_num
  have hrw : (m : ℚ) / (2 ^ 40 : ℚ) - x = ((m : ℚ) - x * 2 ^ 40) / 2 ^ 40 := by
    field_simp
    ring
  rw [hrw, abs_div, abs_of_pos hs]
  gcongr

/-- Single-slot round-trip bound: encode-then-decrypt error stays below
`1/100` once the fresh noise is below `noiseBound`. -/
lemma slot_roundtrip_bound (x : ℚ) (e : ℤ) (he : |e| ≤ noiseBound) :
    |((round (x * 2 ^ 40) + e : ℤ) : ℚ) / (2 ^ 40 : ℚ) - x| < 1 / 100 := by
  have he' : |(e : ℚ)| ≤ 2 ^ 20 := by
    rw [← Int.cast_abs]
    exact_mod_cast he
  have h1 := abs_round_sub (x * 2 ^ 40)
  have key : |((round (x * 2 ^ 40) + e : ℤ) : ℚ) - x * 2 ^ 40| ≤ 1 / 2 + 2 ^ 20 := by
    push_cast
    calc |((round (x * 2 ^ 40) : ℚ) + e) - x * 2 ^ 40|
        = |((round (x * 2 ^ 40) : ℚ) - x * 2 ^ 40) + e| := by ring_nf
      _ ≤ |(round (x * 2 ^ 40) : ℚ) - x * 2 ^ 40| + |(e : ℚ)| := abs_add _ _
      _ ≤ 1 / 2 + 2 ^ 20 := by linarith
  calc |((round (x * 2 ^ 40) + e : ℤ) : ℚ) / (2 ^ 40 : ℚ) - x|
      ≤ (1 / 2 + 2 ^ 20) / 2 ^ 40 := div_scale_bound _ _ _ key
    _ < 1 / 100 := by norm_num

/-- Single-slot bound for a homomorphic sum of two ciphertexts. -/
lemma slot_add_bound (x y : ℚ) (e1 e2 : ℤ)
    (h1 : |e1| ≤ noiseBound) (h2 : |e2| ≤ noiseBound) :
    |((round (x * 2 ^ 40) + round (y * 2 ^ 40) + (e1 + e2) : ℤ) : ℚ) / (2 ^ 40 : ℚ) - (x + y)|
      < 1 / 100 := by
  have h1' : |(e1 : ℚ)| ≤ 2 ^ 20 := by
    rw [← Int.cast_abs]
    exact_mod_cast h1
  have h2' : |(e2 : ℚ)| ≤ 2 ^ 20 := by
    rw [← Int.cast_abs]
    exact_mod_cast h2
  have hx := abs_round_sub (x * 2 ^ 40)
  have hy := abs_round_sub (y * 2 ^ 40)
  have key : |((round (x * 2 ^ 40) + round (y * 2 ^ 40) + (e1 + e2) : ℤ) : ℚ)
      - (x + y) * 2 ^ 40| ≤ 1 + 2 ^ 21 := by
    push_cast
    have habs : |(((round (x * 2 ^ 40) : ℚ) - x * 2 ^ 40) + ((round (y * 2 ^ 40) : ℚ) - y * 2 ^ 40))
        + ((e1 : ℚ) + e2)|
        ≤ |((round (x * 2 ^ 40) : ℚ) - x * 2 ^ 40) + ((round (y * 2 ^ 40) : ℚ) - y * 2 ^ 40)|
          + |(e1 : ℚ) + e2| := abs_add _ _
    have ha : |((round (x * 2 ^ 40) : ℚ) - x * 2 ^ 40) + ((round (y * 2 ^ 40) : ℚ) - y * 2 ^ 40)|
        ≤ |(round (x * 2 ^ 40) : ℚ) - x * 2 ^ 40| + |(round (y * 2 ^ 40) : ℚ) - y * 2 ^ 40| :=
      abs_add _ _
    have hb : |(e1 : ℚ) + e2| ≤ |(e1 : ℚ)| + |(e2 : ℚ)| := abs_add _ _
    have hp : (2 : ℚ) ^ 21 = 2 ^ 20 + 2 ^ 20 := by norm_num
    calc |((round (x * 2 ^ 40) : ℚ) + round (y * 2 ^ 40) + ((e1 : ℚ) + e2)) - (x + y) * 2 ^ 40|
        = |(((round (x * 2 ^ 40) : ℚ) - x * 2 ^ 40) + ((round (y * 2 ^ 40) : ℚ) - y * 2 ^ 40))
            + ((e1 : ℚ) + e2)| := by ring_nf
      _ ≤ 1 + 2 ^ 21 := by
          set a1 := |((round (x * 2 ^ 40) : ℚ) - x * 2 ^ 40) + ((round (y * 2 ^ 40) : ℚ)
            - y * 2 ^ 40) + ((e1 : ℚ) + e2)| with ha1
          set a2 := |((round (x * 2 ^ 40) : ℚ) - x * 2 ^ 40) + ((round (y * 2 ^ 40) : ℚ)
            - y * 2 ^ 40)| with ha2
          set a3 := |(round (x * 2 ^ 40) : ℚ) - x * 2 ^ 40| with ha3
          set a4 := |(round (y * 2 ^ 40) : ℚ) - y * 2 ^ 40| with ha4
          set a5 := |(e1 : ℚ) + e2| with ha5
          set a6 := |(e1 : ℚ)| with ha6
          set a7 := |(e2 : ℚ)| with ha7
          linarith
  calc |((round (x * 2 ^ 40) + round (y * 2 ^ 40) + (e1 + e2) : ℤ) : ℚ) / (2 ^ 40 : ℚ) - (x + y)|
      ≤ (1 + 2 ^ 21) / 2 ^ 40 := div_scale_bound _ _ _ key
    _ < 1 / 100 := by norm_num

/-- Single-slot bound for a homomorphic average of two ciphertexts
(add, then multiply by the plaintext scalar `1/2`). -/
lemma slot_avg_bound (x y : ℚ) (e1 e2 : ℤ)
    (h1 : |e1| ≤ noiseBound) (h2 : |e2| ≤ noiseBound) :
    |((round ((1 / 2 : ℚ) * ((round (x * 2 ^ 40) + round (y * 2 ^ 40) : ℤ) : ℚ))
        + round ((1 / 2 : ℚ) * ((e1 + e2 : ℤ) : ℚ)) : ℤ) : ℚ) / (2 ^ 40 : ℚ)
      - (x + y) / 2| < 1 / 100 := by
  have h1' : |(e1 : ℚ)| ≤ 2 ^ 20 := by
    rw [← Int.cast_abs]
    exact_mod_cast h1
  have h2' : |(e2 : ℚ)| ≤ 2 ^ 20 := by
    rw [← Int.cast_abs]
    exact_mod_cast h2
  have hx := abs_round_sub (x * 2 ^ 40)
  have hy := abs_round_sub (y * 2 ^ 40)
  have hm := abs_round_sub ((1 / 2 : ℚ) * ((round (x * 2 ^ 40) + round (y * 2 ^ 40) : ℤ) : ℚ))
  have hn := abs_round_sub ((1 / 2 : ℚ) * ((e1 + e2 : ℤ) : ℚ))
  have hnval : |(1 / 2 : ℚ) * ((e1 + e2 : ℤ) : ℚ)| ≤ 2 ^ 20 := by
    push_cast
    rw [abs_mul]
    have : |(e1 : ℚ) + e2| ≤ |(e1 : ℚ)| + |(e2 : ℚ)| := abs_add _ _
    rw [abs_of_pos (by norm_num : (0 : ℚ) < 1 / 2)]
    nlinarith
  have key : |((round ((1 / 2 : ℚ) * ((round (x * 2 ^ 40) + round (y * 2 ^ 40) : ℤ) : ℚ))
        + round ((1 / 2 : ℚ) * ((e1 + e2 : ℤ) : ℚ)) : ℤ) : ℚ) - (x + y) / 2 * 2 ^ 40|
      ≤ 3 / 2 + 2 ^ 20 := by
    have hmid : |(1 / 2 : ℚ) * ((round (x * 2 ^ 40) + round (y * 2 ^ 40) : ℤ) : ℚ)
        - (x + y) / 2 * 2 ^ 40| ≤ 1 / 2 := by
      push_cast
      have : (1 / 2 : ℚ) * ((round (x * 2 ^ 40) : ℚ) + round (y * 2 ^ 40))
          - (x + y) / 2 * 2 ^ 40
          = (((round (x * 2 ^ 40) : ℚ) - x * 2 ^ 40) + ((round (y * 2 ^ 40) : ℚ) - y * 2 ^ 40))
              / 2 := by ring
      rw [this, abs_div, abs_of_pos (by norm_num : (0 : ℚ) < 2)]
      have hsum := abs_add ((round (x * 2 ^ 40) : ℚ) - x * 2 ^ 40)
        ((round (y * 2 ^ 40) : ℚ) - y * 2 ^ 40)
      set b1 := |((round (x * 2 ^ 40) : ℚ) - x * 2 ^ 40) + ((round (y * 2 ^ 40) : ℚ)
        - y * 2 ^ 40)| with hb1
      set b2 := |(round (x * 2 ^ 40) : ℚ) - x * 2 ^ 40| with hb2
      set b3 := |(round (y * 2 ^ 40) : ℚ) - y * 2 ^ 40| with hb3
      linarith
    have hrnd : |(round ((1 / 2 : ℚ) * ((e1 + e2 : ℤ) : ℚ)) : ℚ)| ≤ 2 ^ 20 + 1 / 2 := by
      have := abs_add ((round ((1 / 2 : ℚ) * ((e1 + e2 : ℤ) : ℚ)) : ℚ)
          - (1 / 2 : ℚ) * ((e1 + e2 : ℤ) : ℚ)) ((1 / 2 : ℚ) * ((e1 + e2 : ℤ) : ℚ))
      simp only [sub_add_cancel] at this
      linarith
    push_cast
    push_cast at hm hmid hrnd
    have habs := abs_add
      (((round ((1 / 2 : ℚ) * ((round (x * 2 ^ 40) : ℚ) + round (y * 2 ^ 40))) : ℚ)
        - (1 / 2 : ℚ) * ((round (x * 2 ^ 40) : ℚ) + round (y * 2 ^ 40)))
        + ((1 / 2 : ℚ) * ((round (x * 2 ^ 40) : ℚ) + round (y * 2 ^ 40))
          - (x + y) / 2 * 2 ^ 40))
      ((round ((1 / 2 : ℚ) * ((e1 : ℚ) + e2)) : ℚ))
    have habs2 := abs_add
      ((round ((1 / 2 : ℚ) * ((round (x * 2 ^ 40) : ℚ) + round (y * 2 ^ 40))) : ℚ)
        - (1 / 2 : ℚ) * ((round (x * 2 ^ 40) : ℚ) + round (y * 2 ^ 40)))
      ((1 / 2 : ℚ) * ((round (x * 2 ^ 40) : ℚ) + round (y * 2 ^ 40))
        - (x + y) / 2 * 2 ^ 40)
    calc |(round ((1 / 2 : ℚ) * ((round (x * 2 ^ 40) : ℚ) + round (y * 2 ^ 40))) : ℚ)
          + (round ((1 / 2 : ℚ) * ((e1 : ℚ) + e2)) : ℚ) - (x + y) / 2 * 2 ^ 40|
        = |((((round ((1 / 2 : ℚ) * ((round (x * 2 ^ 40) : ℚ) + round (y * 2 ^ 40))) : ℚ)
            - (1 / 2 : ℚ) * ((round (x * 2 ^ 40) : ℚ) + round (y * 2 ^ 40)))
            + ((1 / 2 : ℚ) * ((round (x * 2 ^ 40) : ℚ) + round (y * 2 ^ 40))
              - (x + y) / 2 * 2 ^ 40))
            + (round ((1 / 2 : ℚ) * ((e1 : ℚ) + e2)) : ℚ))| := by ring_nf
      _ ≤ 3 / 2 + 2 ^ 20 := by linarith
  calc |((round ((1 / 2 : ℚ) * ((round (x * 2 ^ 40) + round (y * 2 ^ 40) : ℤ) : ℚ))
        + round ((1 / 2 : ℚ) * ((e1 + e2 : ℤ) : ℚ)) : ℤ) : ℚ) / (2 ^ 40 : ℚ) - (x + y) / 2|
      ≤ (3 / 2 + 2 ^ 20) / 2 ^ 40 := div_scale_bound _ _ _ key
    _ < 1 / 100 := by norm_num

/-- Length of a decryption: the common length of message and noise. -/
lemma decryptFrac_length (sk : SecretKey) (ct : Ciphertext) :
    (decryptFrac sk ct).length = min ct.msg.length ct.noise.length := by
  unfold decryptFrac
  rw [List.length_map, List.length_zipWith]

/-- Slot `i` of a decryption. -/
lemma decryptFrac_getElem (sk : SecretKey) (ct : Ciphertext) (i : ℕ)
    (h1 : i < ct.msg.length) (h2 : i < ct.noise.length)
    (h : i < (decryptFrac sk ct).length) :
    (decryptFrac sk ct)[i] = ((ct.msg[i] + ct.noise[i] : ℤ) : ℚ) / ct.scaleq := by
  unfold decryptFrac
  rw [List.getElem_map, List.getElem_zipWith]

/-- Slot `i` of an encode-encrypt-decrypt round trip at the default context. -/
lemma roundtrip_getElem (sk : SecretKey) (pk : PublicKey) (v : List ℚ) (e : List ℤ)
    (i : ℕ) (hv : i < v.length) (he : i < e.length)
    (h : i < (decryptFrac sk (encryptPtxt defaultContext pk (encodeVec defaultContext v) e)).length) :
    (decryptFrac sk (encryptPtxt defaultContext pk (encodeVec defaultContext v) e))[i]
      = ((round (v[i] * 2 ^ 40) + e[i] : ℤ) : ℚ) / (2 ^ 40 : ℚ) := by
  have h1 : i < (encryptPtxt defaultContext pk (encodeVec defaultContext v) e).msg.length := by
    simpa [encryptPtxt, encodeVec] using hv
  rw [decryptFrac_getElem _ _ i h1 (by simpa [encryptPtxt] using he) h]
  simp [encryptPtxt, encodeVec, defaultContext]

end Helpers

/-- C1: decoding the decryption of the encryption of the encoding of a
bounded vector `v` of length at most `ring_dimension / 2`, at the context
scale `2^40`, approximates `v` within `1/100` in every slot; and the verify
path of `encrypt_weights_csv`, which decrypts the just-produced ciphertext,
yields original/decrypted pairs that agree within the same bound. -/
theorem C1_roundtrip_and_verify :
    (∀ (sk : SecretKey) (pk : PublicKey) (v : List ℚ) (e : List ℤ),
        v.length ≤ defaultContext.n / 2 →
        (∀ x ∈ v, |x| ≤ 10) →
        e.length = v.length →
        (∀ c ∈ e, |c| ≤ noiseBound) →
        (decryptFrac sk (encryptPtxt defaultContext pk (encodeVec defaultContext v) e)).length
            = v.length ∧
          ∀ (i : ℕ)
            (h : i < (decryptFrac sk (encryptPtxt defaultContext pk
              (encodeVec defaultContext v) e)).length) (hv : i < v.length),
            |(decryptFrac sk (encryptPtxt defaultContext pk
              (encodeVec defaultContext v) e))[i] - v[i]| < 1 / 100) ∧
    (∀ (seed : ℤ) (fresh : List ℤ) (fs fs1 : FS) (w : WeightsCsv) (out_name : String)
        (pk : PublicKey) (sk : SecretKey) (fs2 : FS) (out : String)
        (pairs : List (ℚ × ℚ)),
        (∀ c ∈ fresh, |c| ≤ noiseBound) →
        keygen_if_missing seed fs = some (fs1, (defaultContext, pk, sk)) →
        encrypt_weights_csv seed fresh fs w out_name true = some (fs2, out, pairs) →
        ∀ p ∈ pairs, |p.1 - p.2| < 1 / 100) := by
  constructor
  · intro sk pk v e _hlen _hrange hlee hnoise
    refine ⟨by simp [decryptFrac_length, encryptPtxt, encodeVec, hlee], ?_⟩
    intro i h hv
    have hei : i < e.length := hlee ▸ hv
    rw [roundtrip_getElem sk pk v e i hv hei h]
    exact slot_roundtrip_bound v[i] e[i] (hnoise _ (List.getElem_mem hei))
  · intro seed fresh fs fs1 w out_name pk sk fs2 out pairs hnoise hk henc p hp
    simp only [encrypt_weights_csv, hk, Option.some_bind, if_true, Option.some.injEq,
      Prod.mk.injEq] at henc
    obtain ⟨h1, h2⟩ := henc
    dsimp only at hp
    have hp' := List.take_subset _ _ hp
    obtain ⟨i, hilt, hip⟩ := List.getElem_of_mem hp'
    rw [List.length_zip, lt_min_iff] at hilt
    obtain ⟨hiv, hid⟩ := hilt
    have hif : i < fresh.length := by
      rw [decryptFrac_length, encryptPtxt, lt_min_iff] at hid
      exact hid.2
    have hizip : i < ((weights_csv_to_vector w).zip
        (decryptFrac sk (encryptPtxt defaultContext pk
          (encodeVec defaultContext (weights_csv_to_vector w)) fresh))).length := by
      rw [List.length_zip, lt_min_iff]
      exact ⟨hiv, hid⟩
    rw [List.getElem_zip] at hip
    rw [← hip]
    simp only
    rw [roundtrip_getElem sk pk _ fresh i hiv hif hid, abs_sub_comm]
    exact slot_roundtrip_bound _ fresh[i] (hnoise _ (List.getElem_mem hif))

/-- Witness for C1 at the vector `[1, -2, 1/2]` with noise `[3, 0, -5]`,
and an `encrypt_weights_csv` verify run over the CSV with coefficients
`[1, 2]` and zero fresh noise, whose verify pairs are `[(1,1), (2,2)]`. -/
theorem C1_witness :
    (([1, -2, 1/2] : List ℚ).length ≤ defaultContext.n / 2) ∧
    (∀ x ∈ ([1, -2, 1/2] : List ℚ), |x| ≤ 10) ∧
    (∀ c ∈ ([3, 0, -5] : List ℤ), |c| ≤ noiseBound) ∧
    ((decryptFrac ⟨0⟩ (encryptPtxt defaultContext ⟨1⟩
        (encodeVec defaultContext [1, -2, 1/2]) [3, 0, -5])).length
      = ([1, -2, 1/2] : List ℚ).length ∧
      ∀ (i : ℕ)
        (h : i < (decryptFrac ⟨0⟩ (encryptPtxt defaultContext ⟨1⟩
          (encodeVec defaultContext [1, -2, 1/2]) [3, 0, -5])).length)
        (hv : i < ([1, -2, 1/2] : List ℚ).length),
        |(decryptFrac ⟨0⟩ (encryptPtxt defaultContext ⟨1⟩
          (encodeVec defaultContext [1, -2, 1/2]) [3, 0, -5]))[i]
            - ([1, -2, 1/2] : List ℚ)[i]| < 1 / 100) ∧
    (∀ p ∈ ([((1 : ℚ), (1 : ℚ)), (2, 2)] : List (ℚ × ℚ)), |p.1 - p.2| < 1 / 100) := by
  have hA : (([1, -2, 1/2] : List ℚ).length ≤ defaultContext.n / 2) := by decide
  have hB : ∀ x ∈ ([1, -2, 1/2] : List ℚ), |x| ≤ 10 := by
    intro x hx
    fin_cases hx <;> rw [abs_le] <;> norm_num
  have hC : ∀ c ∈ ([3, 0, -5] : List ℤ), |c| ≤ noiseBound := by
    intro c hc
    fin_cases hc <;> norm_num [noiseBound]
  refine ⟨hA, hB, hC, C1_roundtrip_and_verify.1 ⟨0⟩ ⟨1⟩ [1, -2, 1/2] [3, 0, -5] hA hB rfl hC,
    ?_⟩
  intro p hp
  have hz : ∀ c ∈ ([0, 0] : List ℤ), |c| ≤ noiseBound := by
    intro c hc
    fin_cases hc <;> norm_num [noiseBound]
  have h2 := C1_roundtrip_and_verify.2 0 [0, 0] emptyFS _ ⟨none, [1, 2]⟩ ("h1.ct") ⟨1⟩ ⟨0⟩
    _ _ _ hz rfl rfl
  have hlist : ([((1 : ℚ), (1 : ℚ)), (2, 2)] : List (ℚ × ℚ))
      = ((weights_csv_to_vector ⟨none, [1, 2]⟩).zip
          (decryptFrac ⟨0⟩ (encryptPtxt defaultContext ⟨1⟩
            (encodeVec defaultContext (weights_csv_to_vector ⟨none, [1, 2]⟩)) [0, 0]))).take 5 := by
    simp [weights_csv_to_vector, decryptFrac, encryptPtxt, encodeVec, defaultContext, List.zip]
    norm_num
  exact h2 p (hlist ▸ hp)

section CodecLemmas

/-- Context serialization round-trips. -/
lemma decCtx_serCtx (c : Context) : decCtx (serCtx c) = some c := by
  unfold serCtx decCtx
  simp [Int.toNat_natCast, Rat.num_div_den]

/-- Public-key serialization round-trips. -/
lemma decPub_serPub (pk : PublicKey) : decPub (serPub pk) = some pk := rfl

/-- Secret-key serialization round-trips. -/
lemma decSec_serSec (sk : SecretKey) : decSec (serSec sk) = some sk := rfl

/-- Ciphertext serialization round-trips. -/
lemma decCt_serCt (ct : Ciphertext) : decCt (serCt ct) = some ct := by
  unfold serCt decCt
  simp [Int.toNat_natCast, List.take_left, List.drop_left, Rat.num_div_den]

/-- Loading on the server side after writing the default context and a
public key yields them back. -/
lemma load_for_server_of_files (fs : FS) (c : Context) (pk : PublicKey)
    (hc : fs.ctxF = some (serCtx c)) (hp : fs.pubF = some (serPub pk)) :
    load_for_server fs = some (c, pk) := by
  simp [load_for_server, hc, hp, decCtx_serCtx, decPub_serPub]

end CodecLemmas

section AggregateLemmas

/-- Aggregating exactly two ciphertext files with `average = False` produces
their homomorphic sum, headed for `global/global_sum.ct`. -/
lemma aggregateCore_two_sum (look : String → Option (List ℤ)) (p1 p2 : String)
    (c1 c2 : Ciphertext) (h1 : look p1 = some (serCt c1)) (h2 : look p2 = some (serCt c2)) :
    aggregateCore look [p1, p2] false = some (hadd c1 c2, globalSumPath) := by
  simp [aggregateCore, h1, h2, decCt_serCt]

/-- Aggregating exactly two ciphertext files with `average = True` produces
their homomorphic sum scaled by `1/2`, headed for `global/global_avg.ct`. -/
lemma aggregateCore_two_avg (look : String → Option (List ℤ)) (p1 p2 : String)
    (c1 c2 : Ciphertext) (h1 : look p1 = some (serCt c1)) (h2 : look p2 = some (serCt c2)) :
    aggregateCore look [p1, p2] true
      = some (mulPlainScalar (hadd c1 c2) (1 / 2), globalAvgPath) := by
  have hlen : ((1 : ℚ) / (([p1, p2] : List String).length : ℚ)) = 1 / 2 := by norm_num
  simp [aggregateCore, h1, h2, decCt_serCt, hlen]

/-- Running `aggregate_ciphertexts` on a loaded store writes the aggregate at the
returned path. -/
lemma aggregate_ciphertexts_eq (fs : FS) (ct_paths : List String) (average : Bool)
    (hepk : (load_for_server fs).isSome)
    (agg : Ciphertext) (out : String)
    (hcore : aggregateCore fs.cts ct_paths average = some (agg, out)) :
    aggregate_ciphertexts fs ct_paths average
      = some (fs.writeCt out (serCt agg), out) := by
  unfold aggregate_ciphertexts
  obtain ⟨x, hx⟩ := Option.isSome_iff_exists.mp hepk
  rw [hx, hcore]

/-- Slot `i` of the decryption of the homomorphic sum of two freshly
encrypted vectors at the default context. -/
lemma decrypt_hadd_getElem (sk : SecretKey) (pk : PublicKey) (v1 v2 : List ℚ)
    (e1 e2 : List ℤ) (i : ℕ)
    (hv1 : i < v1.length) (hv2 : i < v2.length) (he1 : i < e1.length) (he2 : i < e2.length)
    (h : i < (decryptFrac sk (hadd
      (encryptPtxt defaultContext pk (encodeVec defaultContext v1) e1)
      (encryptPtxt defaultContext pk (encodeVec defaultContext v2) e2))).length) :
    (decryptFrac sk (hadd
      (encryptPtxt defaultContext pk (encodeVec defaultContext v1) e1)
      (encryptPtxt defaultContext pk (encodeVec defaultContext v2) e2)))[i]
      = ((round (v1[i] * 2 ^ 40) + round (v2[i] * 2 ^ 40) + (e1[i] + e2[i]) : ℤ) : ℚ)
          / (2 ^ 40 : ℚ) := by
  have h1 : i < (hadd
      (encryptPtxt defaultContext pk (encodeVec defaultContext v1) e1)
      (encryptPtxt defaultContext pk (encodeVec defaultContext v2) e2)).msg.length := by
    simpa [hadd, encryptPtxt, encodeVec] using And.intro hv1 hv2
  have h2 : i < (hadd
      (encryptPtxt defaultContext pk (encodeVec defaultContext v1) e1)
      (encryptPtxt defaultContext pk (encodeVec defaultContext v2) e2)).noise.length := by
    simpa [hadd, encryptPtxt] using And.intro he1 he2
  rw [decryptFrac_getElem _ _ i h1 h2 h]
  simp [hadd, encryptPtxt, encodeVec, defaultContext]

end AggregateLemmas

/-- C2: for equal-length vectors encrypted under the same context and public
key, `aggregate_ciphertexts` with `average = False` produces the homomorphic
sum; decrypting it approximates `v1 + v2` slot-wise within `1/100`, and the
result is still decryptable after the addition. -/
theorem C2_homomorphic_add_correct :
    ∀ (sk : SecretKey) (pk : PublicKey) (fs : FS) (p1 p2 : String)
      (v1 v2 : List ℚ) (e1 e2 : List ℤ),
      fs.ctxF = some (serCtx defaultContext) →
      fs.pubF = some (serPub pk) →
      fs.cts p1 = some (serCt (encryptPtxt defaultContext pk (encodeVec defaultContext v1) e1)) →
      fs.cts p2 = some (serCt (encryptPtxt defaultContext pk (encodeVec defaultContext v2) e2)) →
      v1.length = v2.length → e1.length = v1.length → e2.length = v2.length →
      (∀ c ∈ e1, |c| ≤ noiseBound) → (∀ c ∈ e2, |c| ≤ noiseBound) →
      ∃ fs',
        aggregate_ciphertexts fs [p1, p2] false = some (fs', globalSumPath) ∧
        fs'.cts globalSumPath = some (serCt (hadd
          (encryptPtxt defaultContext pk (encodeVec defaultContext v1) e1)
          (encryptPtxt defaultContext pk (encodeVec defaultContext v2) e2))) ∧
        (decryptFrac sk (hadd
          (encryptPtxt defaultContext pk (encodeVec defaultContext v1) e1)
          (encryptPtxt defaultContext pk (encodeVec defaultContext v2) e2))).length
            = v1.length ∧
        ∀ (i : ℕ)
          (h : i < (decryptFrac sk (hadd
            (encryptPtxt defaultContext pk (encodeVec defaultContext v1) e1)
            (encryptPtxt defaultContext pk (encodeVec defaultContext v2) e2))).length)
          (hv : i < (List.zipWith (· + ·) v1 v2).length),
          |(decryptFrac sk (hadd
            (encryptPtxt defaultContext pk (encodeVec defaultContext v1) e1)
            (encryptPtxt defaultContext pk (encodeVec defaultContext v2) e2)))[i]
              - (List.zipWith (· + ·) v1 v2)[i]| < 1 / 100 := by
  intro sk pk fs p1 p2 v1 v2 e1 e2 hctx hpub hp1 hp2 hlv he1l he2l hb1 hb2
  have hload := load_for_server_of_files fs defaultContext pk hctx hpub
  have hcore := aggregateCore_two_sum fs.cts p1 p2 _ _ hp1 hp2
  refine ⟨_, aggregate_ciphertexts_eq fs [p1, p2] false (by rw [hload]; rfl) _ _ hcore,
    by simp [FS.writeCt], ?_, ?_⟩
  · rw [decryptFrac_length]
    simp only [hadd, encryptPtxt, encodeVec, List.length_zipWith, List.length_map]
    omega
  · intro i h hv
    rw [List.length_zipWith, lt_min_iff] at hv
    obtain ⟨hiv1, hiv2⟩ := hv
    have hie1 : i < e1.length := by omega
    have hie2 : i < e2.length := by omega
    rw [decrypt_hadd_getElem sk pk v1 v2 e1 e2 i hiv1 hiv2 hie1 hie2 h,
      List.getElem_zipWith]
    exact slot_add_bound _ _ _ _ (hb1 _ (List.getElem_mem hie1)) (hb2 _ (List.getElem_mem hie2))

/-- Witness for C2: vectors `[1, 2]` and `[3, -1]` with noises `[5, -7]`
and `[0, 11]` on the two-hospital server file system. -/
theorem C2_witness :
    (∀ c ∈ ([5, -7] : List ℤ), |c| ≤ noiseBound) ∧
    (∀ c ∈ ([0, 11] : List ℤ), |c| ≤ noiseBound) ∧
    ∃ fs',
      aggregate_ciphertexts
        (twoCtFS ⟨1⟩
          (serCt (encryptPtxt defaultContext ⟨1⟩ (encodeVec defaultContext [1, 2]) [5, -7]))
          (serCt (encryptPtxt defaultContext ⟨1⟩ (encodeVec defaultContext [3, -1]) [0, 11])))
        [ctPath ("hospital1.ct"), ctPath ("hospital2.ct")] false = some (fs', globalSumPath) ∧
      fs'.cts globalSumPath = some (serCt (hadd
        (encryptPtxt defaultContext ⟨1⟩ (encodeVec defaultContext [1, 2]) [5, -7])
        (encryptPtxt defaultContext ⟨1⟩ (encodeVec defaultContext [3, -1]) [0, 11]))) ∧
      (decryptFrac ⟨0⟩ (hadd
        (encryptPtxt defaultContext ⟨1⟩ (encodeVec defaultContext [1, 2]) [5, -7])
        (encryptPtxt defaultContext ⟨1⟩ (encodeVec defaultContext [3, -1]) [0, 11]))).length
          = ([1, 2] : List ℚ).length ∧
      ∀ (i : ℕ)
        (h : i < (decryptFrac ⟨0⟩ (hadd
          (encryptPtxt defaultContext ⟨1⟩ (encodeVec defaultContext [1, 2]) [5, -7])
          (encryptPtxt defaultContext ⟨1⟩ (encodeVec defaultContext [3, -1]) [0, 11]))).length)
        (hv : i < (List.zipWith (· + ·) ([1, 2] : List ℚ) [3, -1]).length),
        |(decryptFrac ⟨0⟩ (hadd
          (encryptPtxt defaultContext ⟨1⟩ (encodeVec defaultContext [1, 2]) [5, -7])
          (encryptPtxt defaultContext ⟨1⟩ (encodeVec defaultContext [3, -1]) [0, 11])))[i]
            - (List.zipWith (· + ·) ([1, 2] : List ℚ) [3, -1])[i]| < 1 / 100 := by
  have hb1 : ∀ c ∈ ([5, -7] : List ℤ), |c| ≤ noiseBound := by
    intro c hc
    fin_cases hc <;> norm_num [noiseBound]
  have hb2 : ∀ c ∈ ([0, 11] : List ℤ), |c| ≤ noiseBound := by
    intro c hc
    fin_cases hc <;> norm_num [noiseBound]
  refine ⟨hb1, hb2, ?_⟩
  exact C2_homomorphic_add_correct ⟨0⟩ ⟨1⟩ _ _ _ [1, 2] [3, -1] [5, -7] [0, 11]
    rfl rfl (by simp [twoCtFS]) (by simp [twoCtFS, ctPath]) rfl rfl rfl hb1 hb2

/-- Slot `i` of the decryption of the homomorphic average (sum followed by
plaintext-scalar multiplication by `1/2`) of two freshly encrypted vectors. -/
lemma decrypt_avg_getElem (sk : SecretKey) (pk : PublicKey) (v1 v2 : List ℚ)
    (e1 e2 : List ℤ) (i : ℕ)
    (hv1 : i < v1.length) (hv2 : i < v2.length) (he1 : i < e1.length) (he2 : i < e2.length)
    (h : i < (decryptFrac sk (mulPlainScalar (hadd
      (encryptPtxt defaultContext pk (encodeVec defaultContext v1) e1)
      (encryptPtxt defaultContext pk (encodeVec defaultContext v2) e2)) (1 / 2))).length) :
    (decryptFrac sk (mulPlainScalar (hadd
      (encryptPtxt defaultContext pk (encodeVec defaultContext v1) e1)
      (encryptPtxt defaultContext pk (encodeVec defaultContext v2) e2)) (1 / 2)))[i]
      = ((round ((1 / 2 : ℚ) * ((round (v1[i] * 2 ^ 40) + round (v2[i] * 2 ^ 40) : ℤ) : ℚ))
          + round ((1 / 2 : ℚ) * ((e1[i] + e2[i] : ℤ) : ℚ)) : ℤ) : ℚ) / (2 ^ 40 : ℚ) := by
  have h1 : i < (mulPlainScalar (hadd
      (encryptPtxt defaultContext pk (encodeVec defaultContext v1) e1)
      (encryptPtxt defaultContext pk (encodeVec defaultContext v2) e2)) (1 / 2)).msg.length := by
    simpa [mulPlainScalar, hadd, encryptPtxt, encodeVec] using And.intro hv1 hv2
  have h2 : i < (mulPlainScalar (hadd
      (encryptPtxt defaultContext pk (encodeVec defaultContext v1) e1)
      (encryptPtxt defaultContext pk (encodeVec defaultContext v2) e2)) (1 / 2)).noise.length := by
    simpa [mulPlainScalar, hadd, encryptPtxt] using And.intro he1 he2
  rw [decryptFrac_getElem _ _ i h1 h2 h]
  simp [mulPlainScalar, hadd, encryptPtxt, encodeVec, defaultContext]

/-- C3: for two ciphertexts under the same context, `aggregate_ciphertexts`
with `average = True` adds them and multiplies by the plaintext scalar
`1/2`; decryption approximates `(v1 + v2) / 2` slot-wise within `1/100`. -/
theorem C3_average_correct :
    ∀ (sk : SecretKey) (pk : PublicKey) (fs : FS) (p1 p2 : String)
      (v1 v2 : List ℚ) (e1 e2 : List ℤ),
      fs.ctxF = some (serCtx defaultContext) →
      fs.pubF = some (serPub pk) →
      fs.cts p1 = some (serCt (encryptPtxt defaultContext pk (encodeVec defaultContext v1) e1)) →
      fs.cts p2 = some (serCt (encryptPtxt defaultContext pk (encodeVec defaultContext v2) e2)) →
      v1.length = v2.length → e1.length = v1.length → e2.length = v2.length →
      (∀ c ∈ e1, |c| ≤ noiseBound) → (∀ c ∈ e2, |c| ≤ noiseBound) →
      ∃ fs',
        aggregate_ciphertexts fs [p1, p2] true = some (fs', globalAvgPath) ∧
        fs'.cts globalAvgPath = some (serCt (mulPlainScalar (hadd
          (encryptPtxt defaultContext pk (encodeVec defaultContext v1) e1)
          (encryptPtxt defaultContext pk (encodeVec defaultContext v2) e2)) (1 / 2))) ∧
        (decryptFrac sk (mulPlainScalar (hadd
          (encryptPtxt defaultContext pk (encodeVec defaultContext v1) e1)
          (encryptPtxt defaultContext pk (encodeVec defaultContext v2) e2)) (1 / 2))).length
            = v1.length ∧
        ∀ (i : ℕ)
          (h : i < (decryptFrac sk (mulPlainScalar (hadd
            (encryptPtxt defaultContext pk (encodeVec defaultContext v1) e1)
            (encryptPtxt defaultContext pk (encodeVec defaultContext v2) e2)) (1 / 2))).length)
          (hv : i < (List.zipWith (· + ·) v1 v2).length),
          |(decryptFrac sk (mulPlainScalar (hadd
            (encryptPtxt defaultContext pk (encodeVec defaultContext v1) e1)
            (encryptPtxt defaultContext pk (encodeVec defaultContext v2) e2)) (1 / 2)))[i]
              - (List.zipWith (· + ·) v1 v2)[i] / 2| < 1 / 100 := by
  intro sk pk fs p1 p2 v1 v2 e1 e2 hctx hpub hp1 hp2 hlv he1l he2l hb1 hb2
  have hload := load_for_server_of_files fs defaultContext pk hctx hpub
  have hcore := aggregateCore_two_avg fs.cts p1 p2 _ _ hp1 hp2
  refine ⟨_, aggregate_ciphertexts_eq fs [p1, p2] true (by rw [hload]; rfl) _ _ hcore,
    by simp [FS.writeCt], ?_, ?_⟩
  · rw [decryptFrac_length]
    simp only [mulPlainScalar, hadd, encryptPtxt, encodeVec, List.length_zipWith,
      List.length_map]
    omega
  · intro i h hv
    rw [List.length_zipWith, lt_min_iff] at hv
    obtain ⟨hiv1, hiv2⟩ := hv
    have hie1 : i < e1.length := by omega
    have hie2 : i < e2.length := by omega
    rw [decrypt_avg_getElem sk pk v1 v2 e1 e2 i hiv1 hiv2 hie1 hie2 h,
      List.getElem_zipWith]
    exact slot_avg_bound _ _ _ _ (hb1 _ (List.getElem_mem hie1)) (hb2 _ (List.getElem_mem hie2))

/-- Witness for C3, the scenario of the specification: averaging the encryptions
of `[1, 2, 0.5]` and `[3, -1, 1.5]` (zero fresh noise) decrypts to within
`1/100` of `[2, 0.5, 1]` slot-wise. -/
theorem C3_witness :
    (∀ c ∈ ([0, 0, 0] : List ℤ), |c| ≤ noiseBound) ∧
    ∃ fs',
      aggregate_ciphertexts
        (twoCtFS ⟨1⟩
          (serCt (encryptPtxt defaultContext ⟨1⟩
            (encodeVec defaultContext [1, 2, 1/2]) [0, 0, 0]))
          (serCt (encryptPtxt defaultContext ⟨1⟩
            (encodeVec defaultContext [3, -1, 3/2]) [0, 0, 0])))
        [ctPath ("hospital1.ct"), ctPath ("hospital2.ct")] true = some (fs', globalAvgPath) ∧
      fs'.cts globalAvgPath = some (serCt (mulPlainScalar (hadd
        (encryptPtxt defaultContext ⟨1⟩ (encodeVec defaultContext [1, 2, 1/2]) [0, 0, 0])
        (encryptPtxt defaultContext ⟨1⟩ (encodeVec defaultContext [3, -1, 3/2]) [0, 0, 0]))
          (1 / 2))) ∧
      (decryptFrac ⟨0⟩ (mulPlainScalar (hadd
        (encryptPtxt defaultContext ⟨1⟩ (encodeVec defaultContext [1, 2, 1/2]) [0, 0, 0])
        (encryptPtxt defaultContext ⟨1⟩ (encodeVec defaultContext [3, -1, 3/2]) [0, 0, 0]))
          (1 / 2))).length = ([1, 2, 1/2] : List ℚ).length ∧
      ∀ (i : ℕ)
        (h : i < (decryptFrac ⟨0⟩ (mulPlainScalar (hadd
          (encryptPtxt defaultContext ⟨1⟩ (encodeVec defaultContext [1, 2, 1/2]) [0, 0, 0])
          (encryptPtxt defaultContext ⟨1⟩ (encodeVec defaultContext [3, -1, 3/2]) [0, 0, 0]))
            (1 / 2))).length)
        (hv : i < (List.zipWith (· + ·) ([1, 2, 1/2] : List ℚ) [3, -1, 3/2]).length),
        |(decryptFrac ⟨0⟩ (mulPlainScalar (hadd
          (encryptPtxt defaultContext ⟨1⟩ (encodeVec defaultContext [1, 2, 1/2]) [0, 0, 0])
          (encryptPtxt defaultContext ⟨1⟩ (encodeVec defaultContext [3, -1, 3/2]) [0, 0, 0]))
            (1 / 2)))[i]
          - (List.zipWith (· + ·) ([1, 2, 1/2] : List ℚ) [3, -1, 3/2])[i] / 2| < 1 / 100 := by
  have hb : ∀ c ∈ ([0, 0, 0] : List ℤ), |c| ≤ noiseBound := by
    intro c hc
    fin_cases hc <;> norm_num [noiseBound]
  refine ⟨hb, ?_⟩
  exact C3_average_correct ⟨0⟩ ⟨1⟩ _ _ _ [1, 2, 1/2] [3, -1, 3/2] [0, 0, 0] [0, 0, 0]
    rfl rfl (by simp [twoCtFS]) (by simp [twoCtFS, ctPath]) rfl rfl rfl hb hb

/-- The loader `load_for_server` reads only the context and public-key files. -/
lemma load_for_server_secF (fs : FS) (s : Option (List ℤ)) :
    load_for_server { fs with secF := s } = load_for_server fs := rfl

/-- The ciphertext store is unaffected by the secret-key file. -/
lemma cts_secF (fs : FS) (s : Option (List ℤ)) :
    ({ fs with secF := s } : FS).cts = fs.cts := rfl

/-- C4: the aggregator path never reads the secret key.  `load_for_server`
loads only the context and public key, and the whole of
`aggregate_ciphertexts` is insensitive to the content of the secret-key file:
for any two secret-key values on disk it produces identical outputs (and
identical resulting file systems up to the untouched secret-key slot). -/
theorem C4_aggregate_ignores_secret_key :
    ∀ (fs : FS) (s1 s2 : Option (List ℤ)) (ct_paths : List String) (average : Bool),
      load_for_server { fs with secF := s1 } = load_for_server fs ∧
      (aggregate_ciphertexts { fs with secF := s1 } ct_paths average).map
          (fun r => (FS.eraseSec r.1, r.2))
        = (aggregate_ciphertexts { fs with secF := s2 } ct_paths average).map
          (fun r => (FS.eraseSec r.1, r.2)) := by
  intro fs s1 s2 ct_paths average
  refine ⟨rfl, ?_⟩
  simp only [aggregate_ciphertexts, load_for_server_secF, cts_secF]
  cases load_for_server fs with
  | none =>
      cases aggregateCore fs.cts ct_paths average with
      | none => rfl
      | some pr => rfl
  | some he =>
      cases aggregateCore fs.cts ct_paths average with
      | none => rfl
      | some pr =>
          obtain ⟨agg, out⟩ := pr
          rfl

/-- Loading with `load_for_decrypt` on a client file system yields the stored keys. -/
lemma load_for_decrypt_clientFS (pk : PublicKey) (sk : SecretKey) (b : List ℤ) :
    load_for_decrypt (clientFS pk sk b) = some (defaultContext, pk, sk) := by
  simp [load_for_decrypt, clientFS, emptyFS, decCtx_serCtx, decPub_serPub, decSec_serSec]

/-- C5: when the length of the externally supplied feature-name list differs
from the length of the decrypted vector, `decrypt_ciphertext_to_csv` surfaces the
`LengthMismatch` error to the caller; on success the named CSV pairs the
feature names with the full decrypted vector — neither sequence is ever
truncated or padded. -/
theorem C5_length_mismatch_raises :
    ∀ (fs : FS) (ct_path : String) (canonical_features : List String)
      (he : Context × PublicKey × SecretKey) (ct : Ciphertext),
      load_for_decrypt fs = some he →
      (fs.cts ct_path).bind decCt = some ct →
      (canonical_features.length ≠ (decryptFrac he.2.2 ct).length →
        (decrypt_ciphertext_to_csv fs ct_path canonical_features).2
          = .error .lengthMismatch) ∧
      (∀ idx named,
        (decrypt_ciphertext_to_csv fs ct_path canonical_features).2 = .ok (idx, named) →
        named = canonical_features.zip (decryptFrac he.2.2 ct) ∧
        named.length = canonical_features.length ∧
        named.length = (decryptFrac he.2.2 ct).length) := by
  intro fs ct_path feats he ct hl hc
  constructor
  · intro hne
    simp only [decrypt_ciphertext_to_csv, hl, hc]
    rw [if_pos hne]
  · intro idx named hok
    simp only [decrypt_ciphertext_to_csv, hl, hc] at hok
    by_cases hne : feats.length ≠ (decryptFrac he.2.2 ct).length
    · rw [if_pos hne] at hok
      exact absurd hok (by simp)
    · rw [if_neg hne] at hok
      push_neg at hne
      simp only [Except.ok.injEq, Prod.mk.injEq] at hok
      obtain ⟨-, hnamed⟩ := hok
      refine ⟨hnamed.symm, ?_, ?_⟩
      · rw [← hnamed, List.length_zip, hne, min_self]
      · rw [← hnamed, List.length_zip, hne, min_self]

/-- Witness for C5: a decrypted vector of length 2 against the single
feature name `["Intercept"]` produces the `LengthMismatch` error. -/
theorem C5_witness :
    (("Intercept" :: ([] : List String)).length
        ≠ (decryptFrac ⟨0⟩ (⟨[0, 0], [0, 0], 2 ^ 40⟩ : Ciphertext)).length) ∧
    (decrypt_ciphertext_to_csv (clientFS ⟨1⟩ ⟨0⟩ (serCt ⟨[0, 0], [0, 0], 2 ^ 40⟩))
        globalAvgPath ["Intercept"]).2 = .error .lengthMismatch := by
  have hne : ("Intercept" :: ([] : List String)).length
      ≠ (decryptFrac ⟨0⟩ (⟨[0, 0], [0, 0], 2 ^ 40⟩ : Ciphertext)).length := by
    rw [decryptFrac_length]
    simp
  refine ⟨hne, ?_⟩
  exact (C5_length_mismatch_raises (clientFS ⟨1⟩ ⟨0⟩ (serCt ⟨[0, 0], [0, 0], 2 ^ 40⟩))
    globalAvgPath ["Intercept"] (defaultContext, ⟨1⟩, ⟨0⟩) ⟨[0, 0], [0, 0], 2 ^ 40⟩
    (load_for_decrypt_clientFS ⟨1⟩ ⟨0⟩ _)
    (by simp [clientFS, emptyFS, decCt_serCt])).1 hne

/-- C10: `decrypt_ciphertext_to_csv` is not atomic on error — the
Index/Value CSV is written before the feature-name length check, so on a
length mismatch the index CSV is already on disk while the named
Feature/Coefficient CSV is left untouched. -/
theorem C10_index_csv_written_before_check :
    ∀ (fs : FS) (ct_path : String) (canonical_features : List String)
      (he : Context × PublicKey × SecretKey) (ct : Ciphertext),
      load_for_decrypt fs = some he →
      (fs.cts ct_path).bind decCt = some ct →
      canonical_features.length ≠ (decryptFrac he.2.2 ct).length →
      (decrypt_ciphertext_to_csv fs ct_path canonical_features).2
          = .error .lengthMismatch ∧
      (decrypt_ciphertext_to_csv fs ct_path canonical_features).1.idxCsv
        = some ((List.range (decryptFrac he.2.2 ct).length).zip (decryptFrac he.2.2 ct)) ∧
      (decrypt_ciphertext_to_csv fs ct_path canonical_features).1.namedCsv
        = fs.namedCsv := by
  intro fs ct_path feats he ct hl hc hne
  simp only [decrypt_ciphertext_to_csv, hl, hc]
  rw [if_pos hne]
  exact ⟨rfl, rfl, rfl⟩

/-- Witness for C10: on the concrete mismatch, the error is raised with the
index CSV already written and the named CSV still absent. -/
theorem C10_witness :
    (("f0" :: ([] : List String)).length
        ≠ (decryptFrac ⟨0⟩ (⟨[0, 0], [0, 0], 2 ^ 40⟩ : Ciphertext)).length) ∧
    (decrypt_ciphertext_to_csv (clientFS ⟨1⟩ ⟨0⟩ (serCt ⟨[0, 0], [0, 0], 2 ^ 40⟩))
        globalAvgPath ["f0"]).2 = .error .lengthMismatch ∧
    (decrypt_ciphertext_to_csv (clientFS ⟨1⟩ ⟨0⟩ (serCt ⟨[0, 0], [0, 0], 2 ^ 40⟩))
        globalAvgPath ["f0"]).1.idxCsv
      = some ((List.range (decryptFrac ⟨0⟩ (⟨[0, 0], [0, 0], 2 ^ 40⟩ : Ciphertext)).length).zip
          (decryptFrac ⟨0⟩ (⟨[0, 0], [0, 0], 2 ^ 40⟩ : Ciphertext))) ∧
    (decrypt_ciphertext_to_csv (clientFS ⟨1⟩ ⟨0⟩ (serCt ⟨[0, 0], [0, 0], 2 ^ 40⟩))
        globalAvgPath ["f0"]).1.namedCsv
      = (clientFS ⟨1⟩ ⟨0⟩ (serCt ⟨[0, 0], [0, 0], 2 ^ 40⟩)).namedCsv := by
  have hne : ("f0" :: ([] : List String)).length
      ≠ (decryptFrac ⟨0⟩ (⟨[0, 0], [0, 0], 2 ^ 40⟩ : Ciphertext)).length := by
    rw [decryptFrac_length]
    simp
  exact ⟨hne, C10_index_csv_written_before_check
    (clientFS ⟨1⟩ ⟨0⟩ (serCt ⟨[0, 0], [0, 0], 2 ^ 40⟩)) globalAvgPath ["f0"]
    (defaultContext, ⟨1⟩, ⟨0⟩) ⟨[0, 0], [0, 0], 2 ^ 40⟩
    (load_for_decrypt_clientFS ⟨1⟩ ⟨0⟩ _)
    (by simp [clientFS, emptyFS, decCt_serCt]) hne⟩

/-- When at least one key file is missing, `keygen_if_missing` generates the
default context and a fresh key pair and saves all three files. -/
lemma keygen_gen_eq (seed : ℤ) (fs : FS)
    (h : fs.ctxF = none ∨ fs.pubF = none ∨ fs.secF = none) :
    keygen_if_missing seed fs
      = some ({ fs with
            ctxF := some (serCtx defaultContext)
            pubF := some (serPub (keyGen seed).2)
            secF := some (serSec (keyGen seed).1) },
          (defaultContext, (keyGen seed).2, (keyGen seed).1)) := by
  unfold keygen_if_missing
  cases hc : fs.ctxF <;> cases hp : fs.pubF <;> cases hs : fs.secF <;>
    simp_all [keyGen]

/-- When all three key files exist and decode, `keygen_if_missing` loads
them and touches nothing. -/
lemma keygen_load_eq (seed : ℤ) (fs : FS) (cb pb sb : List ℤ)
    (c : Context) (pk : PublicKey) (sk : SecretKey)
    (hcb : fs.ctxF = some cb) (hpb : fs.pubF = some pb) (hsb : fs.secF = some sb)
    (hdc : decCtx cb = some c) (hdp : decPub pb = some pk) (hds : decSec sb = some sk) :
    keygen_if_missing seed fs = some (fs, (c, pk, sk)) := by
  simp [keygen_if_missing, hcb, hpb, hsb, hdc, hdp, hds]

/-- Inversion of a successful `keygen_if_missing` in the all-files-present
case. -/
lemma keygen_load_inv (seed : ℤ) (fs : FS) (cb pb sb : List ℤ)
    (r : FS × (Context × PublicKey × SecretKey))
    (hcb : fs.ctxF = some cb) (hpb : fs.pubF = some pb) (hsb : fs.secF = some sb)
    (hk : keygen_if_missing seed fs = some r) :
    r.1 = fs ∧ decCtx cb = some r.2.1 ∧ decPub pb = some r.2.2.1 ∧
      decSec sb = some r.2.2.2 := by
  simp only [keygen_if_missing, hcb, hpb, hsb, Option.bind_eq_bind, Option.bind_eq_some,
    Option.pure_def, Option.some.injEq] at hk
  obtain ⟨c, hdc, pk, hdp, sk, hds, hr⟩ := hk
  rw [← hr]
  exact ⟨rfl, hdc, hdp, hds⟩

/-- C9: `keygen_if_missing` generates and writes key material only when one
of the three key files is missing; when all three exist it loads them and
leaves the file system untouched, and after any successful call, every
later call (with any random source) returns the same key material and
leaves the files unchanged. -/
theorem C9_keygen_only_when_missing :
    (∀ (seed : ℤ) (fs : FS) (r : FS × (Context × PublicKey × SecretKey)),
      fs.ctxF.isSome → fs.pubF.isSome → fs.secF.isSome →
      keygen_if_missing seed fs = some r → r.1 = fs) ∧
    (∀ (seed seed' : ℤ) (fs fs' : FS) (he : Context × PublicKey × SecretKey),
      keygen_if_missing seed fs = some (fs', he) →
      keygen_if_missing seed' fs' = some (fs', he)) := by
  constructor
  · intro seed fs r h1 h2 h3 hk
    obtain ⟨cb, hcb⟩ := Option.isSome_iff_exists.mp h1
    obtain ⟨pb, hpb⟩ := Option.isSome_iff_exists.mp h2
    obtain ⟨sb, hsb⟩ := Option.isSome_iff_exists.mp h3
    exact (keygen_load_inv seed fs cb pb sb r hcb hpb hsb hk).1
  · intro seed seed' fs fs' he hk
    by_cases hmiss : fs.ctxF = none ∨ fs.pubF = none ∨ fs.secF = none
    · rw [keygen_gen_eq seed fs hmiss] at hk
      simp only [Option.some.injEq, Prod.mk.injEq] at hk
      obtain ⟨hfs, hhe⟩ := hk
      rw [← hfs, ← hhe]
      exact keygen_load_eq seed' _ (serCtx defaultContext) (serPub (keyGen seed).2)
        (serSec (keyGen seed).1) defaultContext (keyGen seed).2 (keyGen seed).1
        rfl rfl rfl (decCtx_serCtx _) (decPub_serPub _) (decSec_serSec _)
    · push_neg at hmiss
      obtain ⟨hc, hp, hs⟩ := hmiss
      obtain ⟨cb, hcb⟩ := Option.ne_none_iff_exists'.mp hc
      obtain ⟨pb, hpb⟩ := Option.ne_none_iff_exists'.mp hp
      obtain ⟨sb, hsb⟩ := Option.ne_none_iff_exists'.mp hs
      obtain ⟨hfs, hdc, hdp, hds⟩ :=
        keygen_load_inv seed fs cb pb sb (fs', he) hcb hpb hsb hk
      have hfs2 : fs' = fs := hfs
      subst hfs2
      exact keygen_load_eq seed' fs' cb pb sb he.1 he.2.1 he.2.2
        hcb hpb hsb hdc hdp hds

/-- Witness for C9: with all three key files present, a call leaves the file
system untouched; and after a generating call on the empty file system, a
repeat call with a different random source returns the identical key
material and file system. -/
theorem C9_witness :
    ((clientFS ⟨1⟩ ⟨0⟩ []).ctxF.isSome ∧ (clientFS ⟨1⟩ ⟨0⟩ []).pubF.isSome ∧
      (clientFS ⟨1⟩ ⟨0⟩ []).secF.isSome) ∧
    (∃ r, keygen_if_missing 7 (clientFS ⟨1⟩ ⟨0⟩ []) = some r ∧
      r.1 = clientFS ⟨1⟩ ⟨0⟩ []) ∧
    (∃ fs' he, keygen_if_missing 3 emptyFS = some (fs', he) ∧
      keygen_if_missing 99 fs' = some (fs', he)) := by
  refine ⟨⟨rfl, rfl, rfl⟩, ⟨_, rfl, ?_⟩, ⟨_, _, rfl, ?_⟩⟩
  · exact C9_keygen_only_when_missing.1 7 (clientFS ⟨1⟩ ⟨0⟩ []) _ rfl rfl rfl rfl
  · exact C9_keygen_only_when_missing.2 3 99 emptyFS _ _ rfl

/-- C6: serialization round-trips field-for-field for contexts, public keys,
secret keys and ciphertexts; across process boundaries, the key files
written by `keygen_if_missing` load back (on both the decrypting client and
the server) to the very key material it returned, and the ciphertext file
saved by `encrypt_weights_csv` loads back to the very ciphertext it
produced. -/
theorem C6_serialization_roundtrip :
    (∀ c : Context, decCtx (serCtx c) = some c) ∧
    (∀ pk : PublicKey, decPub (serPub pk) = some pk) ∧
    (∀ sk : SecretKey, decSec (serSec sk) = some sk) ∧
    (∀ ct : Ciphertext, decCt (serCt ct) = some ct) ∧
    (∀ (seed : ℤ) (fs fs' : FS) (he : Context × PublicKey × SecretKey),
      keygen_if_missing seed fs = some (fs', he) →
      load_for_decrypt fs' = some he ∧ load_for_server fs' = some (he.1, he.2.1)) ∧
    (∀ (seed : ℤ) (fresh : List ℤ) (fs fs1 : FS) (w : WeightsCsv) (out_name : String)
      (he : Context × PublicKey × SecretKey) (fs2 : FS) (out : String)
      (pairs : List (ℚ × ℚ)) (verify : Bool),
      keygen_if_missing seed fs = some (fs1, he) →
      encrypt_weights_csv seed fresh fs w out_name verify = some (fs2, out, pairs) →
      (fs2.cts out).bind decCt
        = some (encryptPtxt he.1 he.2.1
            (encodeVec he.1 (weights_csv_to_vector w)) fresh)) := by
  refine ⟨decCtx_serCtx, decPub_serPub, decSec_serSec, decCt_serCt, ?_, ?_⟩
  · intro seed fs fs' he hk
    by_cases hmiss : fs.ctxF = none ∨ fs.pubF = none ∨ fs.secF = none
    · rw [keygen_gen_eq seed fs hmiss] at hk
      simp only [Option.some.injEq, Prod.mk.injEq] at hk
      obtain ⟨hfs, hhe⟩ := hk
      rw [← hfs, ← hhe]
      constructor
      · simp [load_for_decrypt, decCtx_serCtx, decPub_serPub, decSec_serSec]
      · simp [load_for_server, decCtx_serCtx, decPub_serPub]
    · push_neg at hmiss
      obtain ⟨hc, hp, hs⟩ := hmiss
      obtain ⟨cb, hcb⟩ := Option.ne_none_iff_exists'.mp hc
      obtain ⟨pb, hpb⟩ := Option.ne_none_iff_exists'.mp hp
      obtain ⟨sb, hsb⟩ := Option.ne_none_iff_exists'.mp hs
      obtain ⟨hfs, hdc, hdp, hds⟩ :=
        keygen_load_inv seed fs cb pb sb (fs', he) hcb hpb hsb hk
      have hfs2 : fs' = fs := hfs
      subst hfs2
      constructor
      · simp [load_for_decrypt, hcb, hpb, hsb, hdc, hdp, hds]
      · simp [load_for_server, hcb, hpb, hdc, hdp]
  · intro seed fresh fs fs1 w out_name he fs2 out pairs verify hk henc
    simp only [encrypt_weights_csv, hk, Option.some_bind, Option.some.injEq,
      Prod.mk.injEq] at henc
    obtain ⟨h1, h2⟩ := henc
    simp [FS.writeCt, decCt_serCt]

/-- Witness for C6: the default context round-trips, the key files written
by a generating `keygen_if_missing` run load back to the returned keys, and
the ciphertext saved by a concrete `encrypt_weights_csv` run loads back to
the produced ciphertext. -/
theorem C6_witness :
    decCtx (serCtx defaultContext) = some defaultContext ∧
    (∃ fs' he, keygen_if_missing 5 emptyFS = some (fs', he) ∧
      load_for_decrypt fs' = some he ∧ load_for_server fs' = some (he.1, he.2.1)) ∧
    (∃ fs1 he fs2 out pairs,
      keygen_if_missing 5 emptyFS = some (fs1, he) ∧
      encrypt_weights_csv 5 [0] emptyFS ⟨none, [1]⟩ ("hospital1.ct") false
        = some (fs2, out, pairs) ∧
      (fs2.cts out).bind decCt
        = some (encryptPtxt he.1 he.2.1 (encodeVec he.1
            (weights_csv_to_vector ⟨none, [1]⟩)) [0])) := by
  refine ⟨C6_serialization_roundtrip.1 defaultContext,
    ⟨_, _, rfl, ?_⟩, ⟨_, _, _, _, _, rfl, rfl, ?_⟩⟩
  · exact C6_serialization_roundtrip.2.2.2.2.1 5 emptyFS _ _ rfl
  · exact C6_serialization_roundtrip.2.2.2.2.2 5 [0] emptyFS _ ⟨none, [1]⟩
      "hospital1.ct" _ _ _ _ false rfl rfl

/-- A call of `keygen_if_missing` touches only the three key files: the ciphertext
store and the weight CSVs are unchanged. -/
lemma keygen_frame (seed : ℤ) (fs : FS) (r : FS × (Context × PublicKey × SecretKey))
    (hk : keygen_if_missing seed fs = some r) :
    r.1.cts = fs.cts ∧ r.1.h1Csv = fs.h1Csv ∧ r.1.h2Csv = fs.h2Csv := by
  by_cases hmiss : fs.ctxF = none ∨ fs.pubF = none ∨ fs.secF = none
  · rw [keygen_gen_eq seed fs hmiss] at hk
    simp only [Option.some.injEq] at hk
    rw [← hk]
    exact ⟨rfl, rfl, rfl⟩
  · push_neg at hmiss
    obtain ⟨hc, hp, hs⟩ := hmiss
    obtain ⟨cb, hcb⟩ := Option.ne_none_iff_exists'.mp hc
    obtain ⟨pb, hpb⟩ := Option.ne_none_iff_exists'.mp hp
    obtain ⟨sb, hsb⟩ := Option.ne_none_iff_exists'.mp hs
    have hfs := (keygen_load_inv seed fs cb pb sb r hcb hpb hsb hk).1
    rw [hfs]
    exact ⟨rfl, rfl, rfl⟩

/-- A call of `encrypt_weights_csv` writes its ciphertext under
`ciphertexts/out_name` and leaves every other ciphertext file unchanged. -/
lemma encrypt_weights_csv_frame (seed : ℤ) (fresh : List ℤ) (fs : FS) (w : WeightsCsv)
    (out_name : String) (verify : Bool) (fs2 : FS) (out : String) (pairs : List (ℚ × ℚ))
    (h : encrypt_weights_csv seed fresh fs w out_name verify = some (fs2, out, pairs)) :
    out = ctPath out_name ∧ (∀ q, q ≠ ctPath out_name → fs2.cts q = fs.cts q) ∧
    fs2.h1Csv = fs.h1Csv ∧ fs2.h2Csv = fs.h2Csv := by
  cases hk : keygen_if_missing seed fs with
  | none =>
      rw [encrypt_weights_csv, hk] at h
      exact absurd h (by simp)
  | some r =>
      obtain ⟨hcts, hh1, hh2⟩ := keygen_frame seed fs r hk
      simp only [encrypt_weights_csv, hk, Option.some_bind, Option.some.injEq,
        Prod.mk.injEq] at h
      obtain ⟨rfl, rfl, -⟩ := h
      refine ⟨rfl, ?_, hh1, hh2⟩
      intro q hq
      rw [← hcts]
      exact if_neg hq

/-- C8: the evaluator operations produce a new ciphertext file rather than
mutating their inputs — a successful `aggregate_ciphertexts` writes exactly
one new file at the output path, and every input ciphertext file (and the
key files) is byte-for-byte unchanged, so reloading an input after
aggregation yields the same ciphertext as before. -/
theorem C8_aggregate_returns_new_ciphertext :
    ∀ (fs : FS) (ct_paths : List String) (average : Bool) (fs' : FS) (out : String),
      aggregate_ciphertexts fs ct_paths average = some (fs', out) →
      (∃ agg, fs' = fs.writeCt out (serCt agg)) ∧
      (∀ p, p ≠ out → fs'.cts p = fs.cts p) ∧
      (∀ p ∈ ct_paths, p ≠ out → fs'.cts p = fs.cts p) ∧
      fs'.ctxF = fs.ctxF ∧ fs'.pubF = fs.pubF ∧ fs'.secF = fs.secF := by
  intro fs ps avg fs' out hagg
  unfold aggregate_ciphertexts at hagg
  cases hls : load_for_server fs with
  | none =>
      rw [hls] at hagg
      exact absurd hagg (by simp)
  | some he =>
      cases hc : aggregateCore fs.cts ps avg with
      | none =>
          rw [hls, hc] at hagg
          exact absurd hagg (by simp)
      | some pr =>
          obtain ⟨agg, o⟩ := pr
          rw [hls, hc] at hagg
          simp only [Option.some.injEq, Prod.mk.injEq] at hagg
          obtain ⟨hfs, ho⟩ := hagg
          subst ho
          refine ⟨⟨agg, hfs.symm⟩, ?_, ?_, ?_, ?_, ?_⟩
          · intro p hp
            rw [← hfs]
            simp only [FS.writeCt, if_neg hp]
          · intro p _ hp
            rw [← hfs]
            simp only [FS.writeCt, if_neg hp]
          · rw [← hfs]; rfl
          · rw [← hfs]; rfl
          · rw [← hfs]; rfl

/-- Witness for C8: after a concrete two-ciphertext average, both input
ciphertext files and the secret-key slot are unchanged. -/
theorem C8_witness :
    ∃ fs',
      aggregate_ciphertexts
        (twoCtFS ⟨1⟩ (serCt ⟨[0], [0], 2 ^ 40⟩) (serCt ⟨[1], [0], 2 ^ 40⟩))
        [ctPath ("hospital1.ct"), ctPath ("hospital2.ct")] true = some (fs', globalAvgPath) ∧
      fs'.cts (ctPath ("hospital1.ct"))
        = (twoCtFS ⟨1⟩ (serCt ⟨[0], [0], 2 ^ 40⟩) (serCt ⟨[1], [0], 2 ^ 40⟩)).cts
            (ctPath ("hospital1.ct")) ∧
      fs'.cts (ctPath ("hospital2.ct"))
        = (twoCtFS ⟨1⟩ (serCt ⟨[0], [0], 2 ^ 40⟩) (serCt ⟨[1], [0], 2 ^ 40⟩)).cts
            (ctPath ("hospital2.ct")) ∧
      fs'.secF
        = (twoCtFS ⟨1⟩ (serCt ⟨[0], [0], 2 ^ 40⟩) (serCt ⟨[1], [0], 2 ^ 40⟩)).secF := by
  have hload := load_for_server_of_files
    (twoCtFS ⟨1⟩ (serCt ⟨[0], [0], 2 ^ 40⟩) (serCt ⟨[1], [0], 2 ^ 40⟩))
    defaultContext ⟨1⟩ rfl rfl
  have hcore := aggregateCore_two_avg
    (twoCtFS ⟨1⟩ (serCt ⟨[0], [0], 2 ^ 40⟩) (serCt ⟨[1], [0], 2 ^ 40⟩)).cts
    (ctPath ("hospital1.ct")) (ctPath ("hospital2.ct"))
    ⟨[0], [0], 2 ^ 40⟩ ⟨[1], [0], 2 ^ 40⟩
    (by simp [twoCtFS]) (by simp [twoCtFS, ctPath])
  have hagg := aggregate_ciphertexts_eq _ _ true (by rw [hload]; rfl) _ _ hcore
  obtain ⟨-, hall, -, -, -, hsec⟩ := C8_aggregate_returns_new_ciphertext _ _ _ _ _ hagg
  exact ⟨_, hagg, hall _ (by simp [ctPath, globalAvgPath]),
    hall _ (by simp [ctPath, globalAvgPath]), hsec⟩

/-- C7: the CLI entry point terminates fatally when either input weights
file is missing, and when the weight vectors of the two parties have different
lengths; in each case no aggregation output is produced (the global
ciphertext files are untouched).  When both encryptions succeed, the
length-mismatch failure is precisely the party-length-mismatch error. -/
theorem C7_main_fatal_on_missing_or_mismatch :
    ∀ (seed : ℤ) (f1 f2 : List ℤ) (do_sum verify : Bool) (fs : FS),
      (fs.h1Csv = none →
        main seed f1 f2 do_sum verify fs = (fs, .error (.fileMissing ("h1")))) ∧
      (∀ w1, fs.h1Csv = some w1 → fs.h2Csv = none →
        main seed f1 f2 do_sum verify fs = (fs, .error (.fileMissing ("h2")))) ∧
      (∀ w1 w2, fs.h1Csv = some w1 → fs.h2Csv = some w2 →
        (weights_csv_to_vector w1).length ≠ (weights_csv_to_vector w2).length →
        (∃ err, (main seed f1 f2 do_sum verify fs).2 = Except.error err) ∧
        (main seed f1 f2 do_sum verify fs).1.cts globalAvgPath = fs.cts globalAvgPath ∧
        (main seed f1 f2 do_sum verify fs).1.cts globalSumPath = fs.cts globalSumPath ∧
        (∀ fs1 ct1 p1, encrypt_weights_csv seed f1 fs w1 ("hospital1.ct") verify
            = some (fs1, ct1, p1) →
          ∀ fs2 ct2 p2, encrypt_weights_csv seed f2 fs1 w2 ("hospital2.ct") verify
            = some (fs2, ct2, p2) →
          main seed f1 f2 do_sum verify fs = (fs2, .error .partyLengthMismatch))) := by
  intro seed f1 f2 do_sum verify fs
  refine ⟨?_, ?_, ?_⟩
  · intro h1
    simp [main, h1]
  · intro w1 h1 h2
    simp [main, h1, h2]
  · intro w1 w2 h1 h2 hne
    cases he1 : encrypt_weights_csv seed f1 fs w1 ("hospital1.ct") verify with
    | none =>
        have hmain : main seed f1 f2 do_sum verify fs = (fs, .error .loadFailed) := by
          simp [main, h1, h2, he1]
        refine ⟨⟨.loadFailed, by rw [hmain]⟩, by rw [hmain], by rw [hmain], ?_⟩
        intro fs1 ct1 p1 he1'
        exact Option.noConfusion he1'
    | some t1 =>
        obtain ⟨fs1, ct1, p1⟩ := t1
        obtain ⟨-, hcts1, -, -⟩ :=
          encrypt_weights_csv_frame seed f1 fs w1 ("hospital1.ct") verify fs1 ct1 p1 he1
        cases he2 : encrypt_weights_csv seed f2 fs1 w2 ("hospital2.ct") verify with
        | none =>
            have hmain : main seed f1 f2 do_sum verify fs = (fs1, .error .loadFailed) := by
              simp [main, h1, h2, he1, he2]
            refine ⟨⟨.loadFailed, by rw [hmain]⟩, ?_, ?_, ?_⟩
            · rw [hmain]
              exact hcts1 _ (by simp [ctPath, globalAvgPath])
            · rw [hmain]
              exact hcts1 _ (by simp [ctPath, globalSumPath])
            · intro fs1' ct1' p1' he1' fs2' ct2' p2' he2'
              simp only [Option.some.injEq, Prod.mk.injEq] at he1'
              obtain ⟨ha, hb, hc⟩ := he1'
              rw [← ha] at he2'
              exact Option.noConfusion (he2'.symm.trans he2)
        | some t2 =>
            obtain ⟨fs2, ct2, p2⟩ := t2
            obtain ⟨-, hcts2, -, -⟩ :=
              encrypt_weights_csv_frame seed f2 fs1 w2 ("hospital2.ct") verify fs2 ct2 p2 he2
            have hmain : main seed f1 f2 do_sum verify fs
                = (fs2, .error .partyLengthMismatch) := by
              simp only [main, h1, h2, he1, he2]
              rw [if_pos hne]
            refine ⟨⟨.partyLengthMismatch, by rw [hmain]⟩, ?_, ?_, ?_⟩
            · rw [hmain]
              rw [hcts2 _ (by simp [ctPath, globalAvgPath])]
              exact hcts1 _ (by simp [ctPath, globalAvgPath])
            · rw [hmain]
              rw [hcts2 _ (by simp [ctPath, globalSumPath])]
              exact hcts1 _ (by simp [ctPath, globalSumPath])
            · intro fs1' ct1' p1' he1' fs2' ct2' p2' he2'
              simp only [Option.some.injEq, Prod.mk.injEq] at he1'
              obtain ⟨ha, hb, hc⟩ := he1'
              rw [← ha] at he2'
              have htrip2 : (some (fs2, ct2, p2) :
                  Option (FS × String × List (ℚ × ℚ))) = some (fs2', ct2', p2') :=
                he2.symm.trans he2'
              simp only [Option.some.injEq, Prod.mk.injEq] at htrip2
              obtain ⟨hd, hyz, hw⟩ := htrip2
              rw [hmain, hd]

/-- Witness for C7 at all three failure modes: a missing hospital-1 file, a
missing hospital-2 file, and weight vectors of lengths 1 and 2. -/
theorem C7_witness :
    (emptyFS.h1Csv = none ∧
      main 0 [] [] false false emptyFS = (emptyFS, .error (.fileMissing ("h1")))) ∧
    ((⟨none, none, none, fun _ => none, some ⟨none, [1]⟩, none, none, none⟩ : FS).h2Csv
        = none ∧
      main 0 [] [] false false
        ⟨none, none, none, fun _ => none, some ⟨none, [1]⟩, none, none, none⟩
        = (⟨none, none, none, fun _ => none, some ⟨none, [1]⟩, none, none, none⟩,
            .error (.fileMissing ("h2")))) ∧
    ((weights_csv_to_vector ⟨none, [1]⟩).length
        ≠ (weights_csv_to_vector ⟨none, [1, 2]⟩).length ∧
      (∃ err, (main 0 [] [] false false
        ⟨none, none, none, fun _ => none, some ⟨none, [1]⟩, some ⟨none, [1, 2]⟩,
          none, none⟩).2 = Except.error err) ∧
      (main 0 [] [] false false
        ⟨none, none, none, fun _ => none, some ⟨none, [1]⟩, some ⟨none, [1, 2]⟩,
          none, none⟩).1.cts globalAvgPath
        = (⟨none, none, none, fun _ => none, some ⟨none, [1]⟩, some ⟨none, [1, 2]⟩,
            none, none⟩ : FS).cts globalAvgPath ∧
      (main 0 [] [] false false
        ⟨none, none, none, fun _ => none, some ⟨none, [1]⟩, some ⟨none, [1, 2]⟩,
          none, none⟩).1.cts globalSumPath
        = (⟨none, none, none, fun _ => none, some ⟨none, [1]⟩, some ⟨none, [1, 2]⟩,
            none, none⟩ : FS).cts globalSumPath) := by
  have hne : (weights_csv_to_vector ⟨none, [1]⟩).length
      ≠ (weights_csv_to_vector ⟨none, [1, 2]⟩).length := by
    simp [weights_csv_to_vector]
  have h3 := (C7_main_fatal_on_missing_or_mismatch 0 [] [] false false
    ⟨none, none, none, fun _ => none, some ⟨none, [1]⟩, some ⟨none, [1, 2]⟩,
      none, none⟩).2.2 ⟨none, [1]⟩ ⟨none, [1, 2]⟩ rfl rfl hne
  exact ⟨⟨rfl, (C7_main_fatal_on_missing_or_mismatch 0 [] [] false false emptyFS).1 rfl⟩,
    ⟨rfl, (C7_main_fatal_on_missing_or_mismatch 0 [] [] false false
      ⟨none, none, none, fun _ => none, some ⟨none, [1]⟩, none, none, none⟩).2.1
        ⟨none, [1]⟩ rfl rfl⟩,
    hne, h3.1, h3.2.1, h3.2.2.1⟩

end Ckks
